import Mathlib

/-!
Verification of the memory-map parser and analysis core of the repository
(`memMap.py`).

The development shallowly embeds the Python source: text is `List Char`,
Python integers are `Int`, fallible code returns `Except`/`Option`, and the
mutable entry store of `MemoryMap` becomes an explicit `List MapEntry`
threaded through the parser state.  Object references (`MapEntry.module`,
the parser's `currentModule`/`lastItem` cursors) become indices into the
append-only entry list, so Python object identity is index equality.
-/

namespace MemMap

/-- Text is modelled as a list of characters. -/
abbrev Str := List Char

/-- Whitespace as recognized by the source's text processing (`str.strip`,
`str.split`, and the `\s` class of its regexes) on these ASCII reports. -/
def pyWs (c : Char) : Bool :=
  c == ' ' || c == '\t' || c == '\n' || c == '\r' || c == '\x0b' || c == '\x0c'

/-- Greedy span of a character predicate: the maximal matching run and the rest. -/
def spanP (p : Char → Bool) (l : Str) : Str × Str :=
  (l.takeWhile p, l.dropWhile p)

/-- If `pat` is a leading run of `s`, the remainder of `s` after it. -/
def restAfter : Str → Str → Option Str
  | [], s => some s
  | _ :: _, [] => none
  | p :: ps, c :: cs => if p = c then restAfter ps cs else none

/-- First occurrence of `pat` in `s`, as the text before it and the text after
it: the model of Python's `s.split(pat, 1)` when the separator occurs. -/
def findSplit (pat : Str) : Str → Option (Str × Str)
  | [] => (restAfter pat []).map (fun r => ([], r))
  | c :: cs =>
    match restAfter pat (c :: cs) with
    | some r => some ([], r)
    | none =>
      match findSplit pat cs with
      | some (pre, post) => some (c :: pre, post)
      | none => none

/-- Model of `s.split(pat, 1)[-1]`: the text after the first occurrence of
`pat`, or all of `s` when `pat` does not occur. -/
def afterSub (pat : Str) (s : Str) : Str :=
  match findSplit pat s with
  | some (_, post) => post
  | none => s

/-- Model of `s.split('\n')` (the split always yields at least one piece). -/
def splitNl : Str → List Str
  | [] => [[]]
  | c :: rest =>
    match splitNl rest with
    | [] => [[c]]
    | h :: t => if c = '\n' then [] :: h :: t else (c :: h) :: t

/-- Model of `s.strip()`. -/
def stripWs (s : Str) : Str :=
  ((s.dropWhile pyWs).reverse.dropWhile pyWs).reverse

/-- Model of `line.split(maxsplit=1)[0]`: the first whitespace-delimited token. -/
def firstToken (s : Str) : Str :=
  (s.dropWhile pyWs).takeWhile (fun c => !pyWs c)

/-- Value of a hexadecimal digit accepted by Python's `int(..., base=16)`. -/
def hexVal (c : Char) : Option Nat :=
  if '0' ≤ c ∧ c ≤ '9' then some (c.toNat - '0'.toNat)
  else if 'a' ≤ c ∧ c ≤ 'f' then some (c.toNat - 'a'.toNat + 10)
  else if 'A' ≤ c ∧ c ≤ 'F' then some (c.toNat - 'A'.toNat + 10)
  else none

/-- Remaining digits of a hex numeral, allowing a single `_` between digits
(Python's `int` grammar); any other character is a `ValueError`. -/
def hexDigitsRest (acc : Nat) : Str → Option Nat
  | [] => some acc
  | '_' :: c :: rest =>
    match hexVal c with
    | some d => hexDigitsRest (acc * 16 + d) rest
    | none => none
  | ['_'] => none
  | c :: rest =>
    match hexVal c with
    | some d => hexDigitsRest (acc * 16 + d) rest
    | none => none

/-- Unsigned body of a hex numeral: optional `0x`/`0X` marker (an `_` may
directly follow the marker) then at least one digit. -/
def hexBody : Str → Option Nat
  | '0' :: x :: rest =>
    if x = 'x' ∨ x = 'X' then
      match rest with
      | '_' :: c :: r2 =>
        (match hexVal c with
         | some d => hexDigitsRest d r2
         | none => none)
      | c :: r =>
        (match hexVal c with
         | some d => hexDigitsRest d r
         | none => none)
      | [] => none
    else
      match hexVal x with
      | some d => hexDigitsRest d rest
      | none => none
  | [c] =>
    (match hexVal c with
     | some d => some d
     | none => none)
  | _ => none

/-- Model of Python's `int(s, base=16)`: surrounding whitespace and an
optional sign are accepted; `none` models the raised `ValueError`. -/
def pyIntHex (s : Str) : Option Int :=
  match stripWs s with
  | '+' :: r => (hexBody r).map (fun n => (n : Int))
  | '-' :: r => (hexBody r).map (fun n => -(n : Int))
  | r => (hexBody r).map (fun n => (n : Int))

/-- Characters of the `SectionName` class `[._()a-zA-Z]` of the map-line regex. -/
def isSecChar (c : Char) : Bool :=
  c == '.' || c == '_' || c == '(' || c == ')' ||
    decide ('a' ≤ c ∧ c ≤ 'z') || decide ('A' ≤ c ∧ c ≤ 'Z')

/-- Characters of the `[0-9a-zA-Z]` class used for the `Address`/`Size` digits. -/
def isAlnumAZ (c : Char) : Bool :=
  decide ('0' ≤ c ∧ c ≤ '9') || decide ('a' ≤ c ∧ c ≤ 'z') ||
    decide ('A' ≤ c ∧ c ≤ 'Z')

/-- Model of `re.match` for the memory-configuration line regex
`\s*(?P<Name>[^\s*]+)\s+(?P<Origin>[^\s]+)\s+(?P<Length>[^\s]+)\s+(?P<Attributes>[^\s]+)`.
Each character class excludes whitespace, so greedy matching without
backtracking is exact here. -/
def matchMemLine (line : Str) : Option (Str × Str × Str × Str) :=
  let r0 := line.dropWhile pyWs
  let (name, r1) := spanP (fun c => !pyWs c && c != '*') r0
  if name = [] then none else
  let (w1, r2) := spanP pyWs r1
  if w1 = [] then none else
  let (origin, r3) := spanP (fun c => !pyWs c) r2
  if origin = [] then none else
  let (w2, r4) := spanP pyWs r3
  if w2 = [] then none else
  let (length, r5) := spanP (fun c => !pyWs c) r4
  if length = [] then none else
  let (w3, r6) := spanP pyWs r5
  if w3 = [] then none else
  let (attrs, _) := spanP (fun c => !pyWs c) r6
  if attrs = [] then none else
  some (name, origin, length, attrs)

/-- The `(?P<Name>.+)` group after a maximal `\s*`: the text after the
whitespace when non-empty; when only whitespace remains the engine backs the
`\s*` off by one character, so `.+` captures exactly the last character. -/
def nameTail (r : Str) : Str :=
  let t := r.dropWhile pyWs
  if t = [] then
    match r.getLast? with
    | some c => [c]
    | none => []
  else t

/-- The `\s*(?P<Size>0x[0-9a-zA-Z]+)?\s*(?P<Name>.+)` suffix of the map-line
regex, evaluated on the (non-empty) text after the `Address` group.  The
greedy `Size` group gives one trailing digit back to `Name` when the line
would otherwise end with no `Name` text. -/
def sizeName (rest : Str) : Option Str × Str :=
  let t1 := rest.dropWhile pyWs
  match t1 with
  | '0' :: 'x' :: r =>
    let (z, rest2) := spanP isAlnumAZ r
    if z = [] then (none, t1)
    else if rest2 = [] then
      if 2 ≤ z.length then
        (some ('0' :: 'x' :: z.dropLast),
         match z.getLast? with
         | some c => [c]
         | none => [])
      else (none, t1)
    else (some ('0' :: 'x' :: z), nameTail rest2)
  | _ =>
    if t1 = [] then
      (none,
       match rest.getLast? with
       | some c => [c]
       | none => [])
    else (none, t1)

/-- Model of `re.match` for the map-line regex
`\s*(?P<SectionName>[._()a-zA-Z]*)\s*(?P<Address>0x[0-9a-zA-Z]{8,})\s*(?P<Size>0x[0-9a-zA-Z]+)?\s*(?P<Name>.+)`.
The section class cannot contain `0` and the digit classes exclude
whitespace, so the only live backtracking is the `Address`/`Size` groups
each yielding one final digit to `Name` when the line ends at their run. -/
def matchMapLine (line : Str) : Option (Str × Str × Option Str × Str) :=
  let r0 := line.dropWhile pyWs
  let (sec, r1) := spanP isSecChar r0
  let r2 := r1.dropWhile pyWs
  match r2 with
  | '0' :: 'x' :: r3 =>
    let (run, rest) := spanP isAlnumAZ r3
    if run.length < 8 then none
    else if rest = [] then
      if 9 ≤ run.length then
        match run.getLast? with
        | some c => some (sec, '0' :: 'x' :: run.dropLast, none, [c])
        | none => none
      else none
    else
      let sn := sizeName rest
      some (sec, '0' :: 'x' :: run, sn.1, sn.2)
  | _ => none

/-- An entry of the memory map (`MapEntry` in the source).  The owning
`memoryMap` back-reference is the entry list every operation receives; the
`module` back-reference is the index of the Module entry in that list. -/
structure MapEntry where
  sectionName : Str
  module : Option Nat
  entryType : Str
  name : Str
  address : Int
  size : Int
  access : Str
deriving DecidableEq, Repr

instance : Inhabited MapEntry := ⟨⟨[], none, [], [], 0, -1, []⟩⟩

/-- The `MapEntry` constructor: when no size is given but an end is, the size
is derived as `end - address`. -/
def mkMapEntry (sectionName : Str) (module : Option Nat) (entryType : Str)
    (name : Str) (address : Int) (size : Int) (endv : Int) (access : Str) :
    MapEntry :=
  let size := if size < 0 ∧ 0 ≤ endv then endv - address else size
  ⟨sectionName, module, entryType, name, address, size, access⟩

/-- The `start` property: the entry's address. -/
def MapEntry.start (e : MapEntry) : Int := e.address

/-- The `end` property: `address + size` (the source raises nothing here;
for the unresolved sentinel `size = -1` this is `address - 1`). -/
def MapEntry.endLoc (e : MapEntry) : Int := e.address + e.size

/-- The `end` setter: stores `end - start` as the size. -/
def MapEntry.setEnd (e : MapEntry) (endv : Int) : MapEntry :=
  { e with size := endv - e.start }

/-- Model of `getEntriesByType`. -/
def getEntriesByType (es : List MapEntry) (memoryType : Str) : List MapEntry :=
  es.filter (fun e => e.entryType == memoryType)

/-- The `memory` view: all Memory entries, in entry order. -/
def memoryOf (es : List MapEntry) : List MapEntry :=
  getEntriesByType es ("Memory".data)

/-- The `modules` view: all Module entries, in entry order. -/
def modulesOf (es : List MapEntry) : List MapEntry :=
  getEntriesByType es ("Module".data)

/-- The `globals` view: all Global entries, in entry order. -/
def globalsOf (es : List MapEntry) : List MapEntry :=
  getEntriesByType es ("Global".data)

/-- The containment test `location >= g.start and location <= g.end` used by
`getMemoryAt` and `getGlobalAt`. -/
def containsLoc (g : MapEntry) (location : Int) : Bool :=
  decide (g.start ≤ location) && decide (location ≤ g.endLoc)

/-- Model of `getMemoryAt`: first Memory entry containing the location, else
`none` (the source's `return None`). -/
def getMemoryAt (es : List MapEntry) (location : Int) : Option MapEntry :=
  (memoryOf es).find? (fun g => containsLoc g location)

/-- Model of `getGlobalAt`: first Global entry containing the location, else
`none`. -/
def getGlobalAt (es : List MapEntry) (location : Int) : Option MapEntry :=
  (globalsOf es).find? (fun g => containsLoc g location)

/-- Model of `getGlobalStartingAt`, which the source defines as an alias of
`getGlobalAt` (`getGlobalStartingAt=getGlobalAt`). -/
def getGlobalStartingAt (es : List MapEntry) (location : Int) :
    Option MapEntry :=
  getGlobalAt es location

/-- Model of `getGlobalEndingAt`: first Global whose `end` equals the
location, else `none`. -/
def getGlobalEndingAt (es : List MapEntry) (location : Int) :
    Option MapEntry :=
  (globalsOf es).find? (fun g => g.endLoc == location)

/-- Model of `getGlobal` for a string name (the `re.Pattern` branch of the
source is not exercised by any claim): first Global of that name; the
source's `raise Exception(...)` is the `error` case. -/
def getGlobal (es : List MapEntry) (name : Str) : Except Unit MapEntry :=
  match (globalsOf es).find? (fun g => g.name == name) with
  | some g => .ok g
  | none => .error ()

/-- The loop body of `getAdjacentGlobals`, iterated `distance` times over the
cursor range and the accumulated result list. -/
def adjLoop (es : List MapEntry) :
    Nat → Int → Int → List MapEntry → List MapEntry
  | 0, _, _, ret => ret
  | n + 1, start, endv, ret =>
    let step1 :=
      match getGlobalEndingAt es start with
      | some s => (ret ++ [s], s.start)
      | none => (ret, start)
    let step2 :=
      match getGlobalStartingAt es endv with
      | some e => (step1.1 ++ [e], e.endLoc)
      | none => (step1.1, endv)
    adjLoop es n step1.2 step2.2 step2.1

/-- Model of `getAdjacentGlobals`: resolve the named Global (which can
raise), then walk `distance` steps with `getGlobalEndingAt(start)` and
`getGlobalStartingAt(end)`. -/
def getAdjacentGlobals (es : List MapEntry) (globalName : Str)
    (distance : Nat) : Except Unit (List MapEntry) := do
  let g ← getGlobal es globalName
  .ok (adjLoop es distance g.start g.endLoc [])

/-- Errors `load` can raise: `ValueError` from `int(..., base=16)` and
`IndexError` from `sections[1]` when the second anchor is absent. -/
inductive LoadErr where
  | valueError
  | indexError
deriving DecidableEq, Repr

/-- Entry lookup through an index-valued reference (always in range in
reachable parser states). -/
def entryAt (es : List MapEntry) (i : Nat) : MapEntry :=
  es.getD i default

/-- Mutation of `lastItem.end` through its index: `es` with entry `j`'s end
set to `endv`. -/
def setEndAt (es : List MapEntry) (j : Nat) (endv : Int) : List MapEntry :=
  match es[j]? with
  | some x => es.set j (x.setEnd endv)
  | none => es

/-- One line of the memory-configuration loop: a matching line appends a
Memory entry (`int` may raise), any other line is skipped. -/
def processMemLine (es : List MapEntry) (line : Str) :
    Except LoadErr (List MapEntry) :=
  match matchMemLine line with
  | none => .ok es
  | some (nm, origin, len, attrs) =>
    match pyIntHex origin with
    | none => .error .valueError
    | some addr =>
      match pyIntHex len with
      | none => .error .valueError
      | some sz =>
        .ok (es ++ [mkMapEntry [] none ("Memory".data) nm addr sz (-1) attrs])

/-- The memory-configuration loop over its lines. -/
def processMemLines (es : List MapEntry) :
    List Str → Except LoadErr (List MapEntry)
  | [] => .ok es
  | line :: rest =>
    match processMemLine es line with
    | .error e => .error e
    | .ok es' => processMemLines es' rest

/-- Model of the region parse
`sections[0].split("Attributes",1)[-1].strip().split('\n')` plus its loop. -/
def parseRegion (regionSec : Str) : Except LoadErr (List MapEntry) :=
  processMemLines [] (splitNl (stripWs (afterSub ("Attributes".data) regionSec)))

/-- The allow-list of data-bearing section names. -/
def okSections : List Str :=
  [".bss".data, ".tbss".data, "data".data, ".tdata".data,
   ".data1".data, ".rodata".data, ".txt".data, ".txt.memcpy".data]

/-- State of the stateful map-section loop: the entry store plus the
`currentModule`/`lastItem` cursors (as indices) and the `okSection` gate. -/
structure MapState where
  entries : List MapEntry
  currentModule : Option Nat
  lastItem : Option Nat
  okSection : Bool
deriving Repr

/-- Appending a Module entry (lines 160-171 of the source): it becomes the
new `currentModule` and `lastItem` resets. -/
def moduleAppend (st : MapState) (secName nameS : Str) (addr size : Int) :
    MapState :=
  { entries := st.entries ++
      [mkMapEntry secName none ("Module".data) nameS addr size (-1)
        ("rwx".data)],
    currentModule := some st.entries.length,
    lastItem := none,
    okSection := st.okSection }

/-- The Global entry built at lines 173-186 of the source: it inherits the
current module's `end`/`access` (sentinels otherwise) and carries no
explicit size. -/
def newGlobalEntry (st : MapState) (nameS : Str) (addr : Int) : MapEntry :=
  mkMapEntry [] st.currentModule ("Global".data) nameS addr (-1)
    (match st.currentModule with
     | none => -1
     | some i => (entryAt st.entries i).endLoc)
    (match st.currentModule with
     | none => "rwx".data
     | some i => (entryAt st.entries i).access)

/-- Appending a Global entry (lines 173-191 of the source): it inherits the
current module's `end`/`access`, backfills `lastItem.end` to the new entry's
start minus one, and becomes the new `lastItem`. -/
def globalAppend (st : MapState) (nameS : Str) (addr : Int) : MapState :=
  { entries :=
      match st.lastItem with
      | none => st.entries ++ [newGlobalEntry st nameS addr]
      | some j =>
        setEndAt (st.entries ++ [newGlobalEntry st nameS addr]) j
          ((newGlobalEntry st nameS addr).start - 1),
    currentModule := st.currentModule,
    lastItem := some st.entries.length,
    okSection := st.okSection }

/-- One iteration of the map-section loop (lines 138-191 of the source):
blank lines are skipped; a `.`-line resets the cursors and gates on the
section allow-list; in an allowed section a regex match appends a Module
(non-empty `SectionName`) or a Global, backfilling `lastItem.end` to the new
start minus one. -/
def processMapLine (st : MapState) (line : Str) : Except LoadErr MapState :=
  if line = [] then .ok st
  else if line.head? = some '.' then
    .ok { st with
          currentModule := none, lastItem := none,
          okSection := decide (firstToken line ∈ okSections) }
  else if !st.okSection then .ok st
  else
    match matchMapLine line with
    | none => .ok st
    | some (secName, addrS, sizeS, nameS) =>
      if secName ≠ [] then
        match sizeS with
        | none =>
          match pyIntHex addrS with
          | none => .error .valueError
          | some addr => .ok (moduleAppend st secName nameS addr (-1))
        | some s =>
          match pyIntHex s with
          | none => .error .valueError
          | some size =>
            match pyIntHex addrS with
            | none => .error .valueError
            | some addr => .ok (moduleAppend st secName nameS addr size)
      else
        match pyIntHex addrS with
        | none => .error .valueError
        | some addr => .ok (globalAppend st nameS addr)

/-- The map-section loop over its lines. -/
def processMapLines (st : MapState) :
    List Str → Except LoadErr MapState
  | [] => .ok st
  | line :: rest =>
    match processMapLine st line with
    | .error e => .error e
    | .ok st' => processMapLines st' rest

/-- Model of the symbol-map parse
`sections[1].strip().split('\n\n',1)[-1].split('\n')` plus its loop, starting
from the Memory entries of the region parse. -/
def parseMapSection (init : List MapEntry) (mapSec : Str) :
    Except LoadErr (List MapEntry) :=
  match
    processMapLines
      { entries := init, currentModule := none, lastItem := none,
        okSection := false }
      (splitNl (afterSub ('\n' :: '\n' :: []) (stripWs mapSec)))
  with
  | .error e => .error e
  | .ok st => .ok st.entries

/-- Model of `MemoryMap.load`: normalize line endings, take the text after
`"Memory Configuration"` (all of it when absent), split on
`"Linker script and memory map"`, parse the region section, then parse the
map section - or fail with `IndexError` at `sections[1]` when the second
anchor is absent. -/
def load (text : Str) : Except LoadErr (List MapEntry) :=
  let d := text.filter (fun c => c != '\r')
  let t := afterSub ("Memory Configuration".data) d
  match findSplit ("Linker script and memory map".data) t with
  | some (regionPart, mapPart) =>
    match parseRegion regionPart with
    | .error e => .error e
    | .ok mems => parseMapSection mems mapPart
  | none =>
    match parseRegion t with
    | .error e => .error e
    | .ok _ => .error .indexError

/-- A finding appended by `diagnose`, one constructor per `ret.append` site
(the rendered message is injectively determined by the constructor data). -/
inductive Finding where
  | pastEndOfMemory (name : Str)
  | pastStartOfMemory (name : Str)
  | pastEndOfModule (name : Str)
  | pastStartOfModule (name : Str)
  | redefined (name : Str) (moduleName : Str) (otherModuleName : Str)
  | overlap (name : Str) (start endv : Int) (name2 : Str) (start2 endv2 : Int)
deriving DecidableEq, Repr

/-- The overlap condition of `diagnose`, line 411-412 of the source:
`(g.start>=g2.start and g.start<g2.end) or (g.end>g2.start and g.end<=g2.end)`. -/
def overlapCond (s1 e1 s2 e2 : Int) : Bool :=
  (decide (s2 ≤ s1) && decide (s1 < e2)) || (decide (s2 < e1) && decide (e1 ≤ e2))

/-- The inner-loop body of `diagnose` for a pair `(g, g2)`: a redefinition
finding for an equal name under two different modules, else an overlap
finding under `overlapCond`. -/
def pairFindings (es : List MapEntry) (g g2 : MapEntry) : List Finding :=
  if g.name = g2.name then
    match g.module, g2.module with
    | some m, some m2 =>
      if m ≠ m2 then
        [.redefined g.name (entryAt es m).name (entryAt es m2).name]
      else []
    | _, _ => []
  else
    if overlapCond g.start g.endLoc g2.start g2.endLoc then
      [.overlap g.name g.start g.endLoc g2.name g2.start g2.endLoc]
    else []

/-- The per-entry findings of `diagnose` against the containing memory and
the owning module. -/
def entryFindings (es : List MapEntry) (memory g : MapEntry) : List Finding :=
  (if memory.endLoc < g.endLoc then [Finding.pastEndOfMemory g.name] else []) ++
  (if g.start < memory.start then [Finding.pastStartOfMemory g.name] else []) ++
  (match g.module with
   | none => []
   | some mi =>
     (if (entryAt es mi).endLoc < g.endLoc then
        [Finding.pastEndOfModule g.name] else []) ++
     (if g.start < (entryAt es mi).start then
        [Finding.pastStartOfModule g.name] else []))

/-- The outer loop of `diagnose` over the Globals `gs`; `g.memory` raises
(`error`) when `getMemoryAt(g.start)` finds nothing. -/
def diagnoseGo (es gs : List MapEntry) :
    List MapEntry → Except Unit (List Finding)
  | [] => .ok []
  | g :: rest =>
    match getMemoryAt es g.start with
    | none => .error ()
    | some memory =>
      match diagnoseGo es gs rest with
      | .error e => .error e
      | .ok tail =>
        .ok (entryFindings es memory g ++
             gs.flatMap (fun g2 => pairFindings es g g2) ++ tail)

/-- Model of `diagnose`: the findings list, or the `IndexError` raised by
`g.memory` for a Global outside every Memory region. -/
def diagnose (es : List MapEntry) : Except Unit (List Finding) :=
  diagnoseGo es (globalsOf es) (globalsOf es)

/-- A difference yielded by `differences`, mirroring the source's
`(description, selfEntry, otherEntry)` tuples. -/
abbrev Diff := Str × Option MapEntry × Option MapEntry

/-- Insertion into the name-keyed dict `globals1` with Python dict semantics:
re-assignment updates the value but keeps the original position. -/
def dictInsert : List (Str × MapEntry) → Str → MapEntry →
    List (Str × MapEntry)
  | [], k, v => [(k, v)]
  | (k', v') :: rest, k, v =>
    if k' = k then (k', v) :: rest else (k', v') :: dictInsert rest k v

/-- Dict lookup (`globals1[name]` / `name in globals1`). -/
def dictFind : List (Str × MapEntry) → Str → Option MapEntry
  | [], _ => none
  | (k', v') :: rest, k => if k' = k then some v' else dictFind rest k

/-- Dict deletion (`del globals1[name]`). -/
def dictDelete : List (Str × MapEntry) → Str → List (Str × MapEntry)
  | [], _ => []
  | (k', v') :: rest, k =>
    if k' = k then rest else (k', v') :: dictDelete rest k

/-- The loop of `differences` over `other`'s Globals, yielding differences
and consuming matched names from the dict. -/
def diffLoop (d : List (Str × MapEntry)) :
    List MapEntry → List Diff × List (Str × MapEntry)
  | [] => ([], d)
  | g2 :: rest =>
    match dictFind d g2.name with
    | none =>
      let r := diffLoop d rest
      (("Only right".data, none, some g2) :: r.1, r.2)
    | some g1 =>
      let emit :=
        (if g1.address ≠ g2.address then
           [(("Location different".data : Str), some g1, some g2)] else []) ++
        (if g1.size ≠ g2.size then
           [(("Size different".data : Str), some g1, some g2)] else [])
      let r := diffLoop (dictDelete d g2.name) rest
      (emit ++ r.1, r.2)

/-- Model of `differences`: key `self`'s Globals by name, iterate `other`'s
Globals, then yield `"Only left"` for every unconsumed entry of `self`. -/
def differences (self other : List MapEntry) : List Diff :=
  let globals1 :=
    (globalsOf self).foldl (fun d g1 => dictInsert d g1.name g1) []
  let r := diffLoop globals1 (globalsOf other)
  r.1 ++ (r.2.map (fun p => (("Only left".data : Str), some p.2, none)))

/-- The keys of the name-keyed dict, in order. -/
def dictKeys (d : List (Str × MapEntry)) : List Str := d.map Prod.fst

/-- Modelled from the claim's words (C6), for comparison against
`differences`: per Global of `other` in order, emit `"Only right"` when the
name has no Global in `self`, else the address/size mismatch findings
against the `self` entry of that name; afterwards emit `"Only left"` for
every Global of `self` whose name no Global of `other` carries. -/
def specDifferences (self other : List MapEntry) : List Diff :=
  (globalsOf other).flatMap (fun g2 =>
    match (globalsOf self).find? (fun g1 => g1.name == g2.name) with
    | none => [(("Only right".data : Str), none, some g2)]
    | some g1 =>
      (if g1.address ≠ g2.address then
         [(("Location different".data : Str), some g1, some g2)] else []) ++
      (if g1.size ≠ g2.size then
         [(("Size different".data : Str), some g1, some g2)] else [])) ++
  ((globalsOf self).filter
      (fun g1 => !((globalsOf other).any (fun g2 => g2.name == g1.name)))).map
    (fun g1 => (("Only left".data : Str), some g1, none))

/-- An entry is a Global entry. -/
def isGlobalE (e : MapEntry) : Prop := e.entryType = "Global".data

/-- An entry is a Module entry. -/
def isModuleE (e : MapEntry) : Prop := e.entryType = "Module".data

/-- Adjacent same-module Globals abut: the earlier one's end was backfilled
to the later one's start minus one. -/
def backfilled (l : List MapEntry) : Prop :=
  ∀ (i : Nat) (a b : MapEntry) (m : Nat), l[i]? = some a → l[i + 1]? = some b →
    isGlobalE a → isGlobalE b → a.module = some m → b.module = some m →
    a.endLoc = b.start - 1

/-- Every module back-reference points strictly before the referring entry. -/
def modBefore (l : List MapEntry) : Prop :=
  ∀ (i : Nat) (e : MapEntry) (m : Nat), l[i]? = some e → e.module = some m → m < i

/-- Between a Module entry and any Global referring to it lie only Globals
referring to it (same-module Globals are contiguous after the module). -/
def contigFromModule (l : List MapEntry) : Prop :=
  ∀ (j : Nat) (b : MapEntry) (m : Nat), l[j]? = some b → isGlobalE b → b.module = some m →
    ∀ k, m < k → k < j → ∃ (c : MapEntry), l[k]? = some c ∧ isGlobalE c ∧ c.module = some m

/-- The entry-store facts maintained by the map-section parser. -/
def StoreInv (l : List MapEntry) : Prop :=
  modBefore l ∧ contigFromModule l ∧ backfilled l

/-- Invariant tying the parser cursors to the entry store: `lastItem` is the
just-appended Global of the current module, and when `lastItem` is clear the
current module (if any) is the just-appended Module entry. -/
structure StInv (st : MapState) : Prop where
  last_spec : ∀ j, st.lastItem = some j →
    j + 1 = st.entries.length ∧
    ∃ e, st.entries[j]? = some e ∧ isGlobalE e ∧ e.module = st.currentModule
  none_spec : st.lastItem = none →
    st.currentModule = none ∨
    ∃ i e, st.currentModule = some i ∧ i + 1 = st.entries.length ∧
      st.entries[i]? = some e ∧ isModuleE e
  cur_spec : ∀ i, st.currentModule = some i →
    ∃ e, st.entries[i]? = some e ∧ isModuleE e
  store : StoreInv st.entries

/-- Overlap reported between two entries, in either orientation of the
doubly-nested loop of `diagnose`. -/
def reportedOverlap (r : List Finding) (a b : MapEntry) : Prop :=
  Finding.overlap a.name a.start a.endLoc b.name b.start b.endLoc ∈ r ∨
  Finding.overlap b.name b.start b.endLoc a.name a.start a.endLoc ∈ r

/-! Concrete inputs used by counterexamples, failing inputs and witnesses. -/

/-- A linker report declaring RAM and a module `mod.o` with Globals
`A@0`, `B@10`, `C@20` (the backfill example of the specification). -/
def mapText1 : Str :=
  ("Memory Configuration\nName Origin Length Attributes\nRAM 0x00000000 0x00001000 rw\nLinker script and memory map\n.bss\n .bss 0x00000000 0x100 mod.o\n 0x00000000 A\n 0x0000000a B\n 0x00000014 C\n").data

def m1RAM : MapEntry :=
  ⟨[], none, "Memory".data, "RAM".data, 0, 4096, "rw".data⟩
def m1Mod : MapEntry :=
  ⟨".bss".data, none, "Module".data, "mod.o".data, 0, 256, "rwx".data⟩
def m1A : MapEntry := ⟨[], some 1, "Global".data, "A".data, 0, 9, "rwx".data⟩
def m1B : MapEntry := ⟨[], some 1, "Global".data, "B".data, 10, 9, "rwx".data⟩
def m1C : MapEntry := ⟨[], some 1, "Global".data, "C".data, 20, 236, "rwx".data⟩

/-- The parse of `mapText1`. -/
def m1Entries : List MapEntry := [m1RAM, m1Mod, m1A, m1B, m1C]

/-- A report whose Globals arrive in decreasing address order, leaving `g1`
with a degenerate range (`end < start`) after backfill. -/
def cex1Text : Str :=
  ("Memory Configuration\nName Origin Length Attributes\nRAM 0x00000000 0x00001000 rw\nLinker script and memory map\n.bss\n .bss 0x00000000 0x100 mod.o\n 0x00000010 g1\n 0x00000005 g2\n").data

def c1g1 : MapEntry :=
  ⟨[], some 1, "Global".data, "g1".data, 16, -12, "rwx".data⟩
def c1g2 : MapEntry :=
  ⟨[], some 1, "Global".data, "g2".data, 5, 251, "rwx".data⟩

/-- The parse of `cex1Text`. -/
def cex1Entries : List MapEntry := [m1RAM, m1Mod, c1g1, c1g2]

/-- The findings of `diagnose` on `cex1Entries`. -/
def cex1Findings : List Finding :=
  [Finding.overlap ("g1".data) 16 4 ("g2".data) 5 256]

/-- A report with a module-less Global whose size is never resolved. -/
def cex7Text : Str :=
  ("Memory ConfigurationLinker script and memory map\n.bss\n 0x00000010 gg\n").data

/-- The unresolved Global parsed from `cex7Text`. -/
def gge : MapEntry := ⟨[], none, "Global".data, "gg".data, 16, -1, "rwx".data⟩

/-- A hand-written store: RAM plus Globals `A[0,10)` and `B[5,15)` (the
overlapping pair of the specification's example). -/
def w1RAM : MapEntry :=
  ⟨[], none, "Memory".data, "RAM".data, 0, 100, "rw".data⟩
def w1A : MapEntry := ⟨[], none, "Global".data, "A".data, 0, 10, "rwx".data⟩
def w1B : MapEntry := ⟨[], none, "Global".data, "B".data, 5, 10, "rwx".data⟩
def w1Entries : List MapEntry := [w1RAM, w1A, w1B]

/-- The findings of `diagnose` on `w1Entries`. -/
def w1Findings : List Finding :=
  [Finding.overlap ("A".data) 0 10 ("B".data) 5 15,
   Finding.overlap ("B".data) 5 15 ("A".data) 0 10]

/-- Two overlapping Memory regions (entry order M1 then M2). -/
def w10M1 : MapEntry :=
  ⟨[], none, "Memory".data, "M1".data, 0, 100, "rw".data⟩
def w10M2 : MapEntry :=
  ⟨[], none, "Memory".data, "M2".data, 50, 100, "rw".data⟩
def w10Entries : List MapEntry := [w10M1, w10M2]

/-- Globals for the specification's diff example. -/
def w6x1 : MapEntry :=
  ⟨[], none, "Global".data, "x".data, 256, 4, "rwx".data⟩
def w6x2 : MapEntry :=
  ⟨[], none, "Global".data, "x".data, 260, 4, "rwx".data⟩
def w6y : MapEntry := ⟨[], none, "Global".data, "y".data, 512, 8, "rwx".data⟩

/-- A store holding a Global but no Memory region at all. -/
def w9G : MapEntry :=
  ⟨[], none, "Global".data, "lost".data, 5, 1, "rwx".data⟩
def w9Entries : List MapEntry := [w9G]

/-! Helper lemmas. -/

theorem find?_first {α : Type} (p : α → Bool) (l : List α) (a : α) :
    l.find? p = some a ↔
      ∃ l1 l2, l = l1 ++ a :: l2 ∧ p a = true ∧ ∀ x ∈ l1, p x = false := by
  induction l with
  | nil => simp [List.find?]
  | cons b t ih =>
    rw [List.find?]
    cases hb : p b with
    | true =>
      simp only [Option.some.injEq]
      constructor
      · rintro rfl
        exact ⟨[], t, rfl, hb, by simp⟩
      · rintro ⟨l1, l2, heq, hpa, hall⟩
        cases l1 with
        | nil =>
          simp only [List.nil_append] at heq
          injection heq
        | cons c l1' =>
          simp only [List.cons_append] at heq
          injection heq with h1 h2
          subst h1
          exact absurd hb (by simp [hall b (by simp)])
    | false =>
      rw [ih]
      constructor
      · rintro ⟨l1, l2, heq, hpa, hall⟩
        refine ⟨b :: l1, l2, by rw [heq]; rfl, hpa, ?_⟩
        intro x hx
        rcases List.mem_cons.1 hx with rfl | hx'
        · exact hb
        · exact hall x hx'
      · rintro ⟨l1, l2, heq, hpa, hall⟩
        cases l1 with
        | nil =>
          simp only [List.nil_append] at heq
          injection heq with h1 h2
          subst h1
          exact absurd hpa (by simp [hb])
        | cons c l1' =>
          simp only [List.cons_append] at heq
          injection heq with h1 h2
          subst h1
          exact ⟨l1', l2, h2, hpa,
            fun x hx => hall x (List.mem_cons.2 (Or.inr hx))⟩

theorem containsLoc_eq_true {g : MapEntry} {loc : Int} :
    containsLoc g loc = true ↔ (g.start ≤ loc ∧ loc ≤ g.endLoc) := by
  simp [containsLoc]

theorem containsLoc_eq_false {g : MapEntry} {loc : Int} :
    containsLoc g loc = false ↔ ¬(g.start ≤ loc ∧ loc ≤ g.endLoc) := by
  simp [containsLoc]

theorem mem_globalsOf {es : List MapEntry} {g : MapEntry} :
    g ∈ globalsOf es ↔ g ∈ es ∧ g.entryType = "Global".data := by
  simp [globalsOf, getEntriesByType, List.mem_filter]

theorem mem_memoryOf {es : List MapEntry} {g : MapEntry} :
    g ∈ memoryOf es ↔ g ∈ es ∧ g.entryType = "Memory".data := by
  simp [memoryOf, getEntriesByType, List.mem_filter]

theorem getGlobal_error_iff {es : List MapEntry} {nm : Str} :
    getGlobal es nm = .error () ↔ ∀ g ∈ globalsOf es, g.name ≠ nm := by
  rw [getGlobal]
  cases hf : (globalsOf es).find? (fun g => g.name == nm) with
  | none =>
    constructor
    · intro _ g hg
      simpa using List.find?_eq_none.1 hf g hg
    · intro _
      rfl
  | some g =>
    constructor
    · intro h
      simp at h
    · intro hall
      have hm := List.mem_of_find?_eq_some hf
      have hp := List.find?_some hf
      exact absurd (by simpa using hp) (hall g hm)

/-- C8: `getGlobalStartingAt` is the source's alias of `getGlobalAt`
(`getGlobalStartingAt=getGlobalAt`), so it returns the first Global in entry
order whose inclusive range contains the address, not one starting exactly
there. -/
theorem c8_getGlobalStartingAt_alias (es : List MapEntry) (location : Int) :
    getGlobalStartingAt es location = getGlobalAt es location ∧
    ∀ g : MapEntry, getGlobalAt es location = some g ↔
      ∃ l1 l2, globalsOf es = l1 ++ g :: l2 ∧
        (g.start ≤ location ∧ location ≤ g.endLoc) ∧
        ∀ x ∈ l1, ¬(x.start ≤ location ∧ location ≤ x.endLoc) := by
  refine ⟨rfl, fun g => ?_⟩
  rw [getGlobalAt, find?_first]
  constructor
  · rintro ⟨l1, l2, heq, hpa, hall⟩
    exact ⟨l1, l2, heq, containsLoc_eq_true.1 hpa,
      fun x hx => containsLoc_eq_false.1 (hall x hx)⟩
  · rintro ⟨l1, l2, heq, hpa, hall⟩
    exact ⟨l1, l2, heq, containsLoc_eq_true.2 hpa,
      fun x hx => containsLoc_eq_false.2 (hall x hx)⟩

/-- C8 witness at a concrete store and address. -/
theorem c8_witness :
    getGlobalStartingAt w1Entries 7 = getGlobalAt w1Entries 7 :=
  (c8_getGlobalStartingAt_alias w1Entries 7).1

/-- C10: `getMemoryAt` deterministically returns the first containing Memory
entry in entry order (also when several regions contain the address). -/
theorem c10_getMemoryAt_first_match (es : List MapEntry) (location : Int)
    (m : MapEntry) (l1 l2 : List MapEntry)
    (hsplit : memoryOf es = l1 ++ m :: l2)
    (hm : m.start ≤ location ∧ location ≤ m.endLoc)
    (hprev : ∀ x ∈ l1, ¬(x.start ≤ location ∧ location ≤ x.endLoc)) :
    getMemoryAt es location = some m := by
  rw [getMemoryAt, find?_first]
  exact ⟨l1, l2, hsplit, containsLoc_eq_true.2 hm,
    fun x hx => containsLoc_eq_false.2 (hprev x hx)⟩

/-- C10 witness: address 60 lies in both `M1` and `M2`; the first one wins. -/
theorem c10_witness :
    (w10M1.start ≤ 60 ∧ (60 : Int) ≤ w10M1.endLoc) ∧
    (w10M2.start ≤ 60 ∧ (60 : Int) ≤ w10M2.endLoc) ∧
    getMemoryAt w10Entries 60 = some w10M1 := by
  refine ⟨by decide, by decide, ?_⟩
  exact c10_getMemoryAt_first_match w10Entries 60 w10M1 [] [w10M2] rfl
    (by decide) (by intro x hx; cases hx)

/-- C3 (amended): when no entry matches, `getMemoryAt`, `getGlobalAt` and
`getGlobalEndingAt` return `None` (no error), while `getGlobal` raises a
plain `Exception`; a successful `getMemoryAt` returns a Memory entry whose
inclusive range `[start, end]` contains the address. -/
theorem c3_queries_silent_none (es : List MapEntry) (location : Int)
    (nm : Str) :
    (getMemoryAt es location = none ↔
      ∀ m ∈ memoryOf es, ¬(m.start ≤ location ∧ location ≤ m.endLoc)) ∧
    (getGlobalAt es location = none ↔
      ∀ g ∈ globalsOf es, ¬(g.start ≤ location ∧ location ≤ g.endLoc)) ∧
    (getGlobalEndingAt es location = none ↔
      ∀ g ∈ globalsOf es, g.endLoc ≠ location) ∧
    (getGlobal es nm = .error () ↔ ∀ g ∈ globalsOf es, g.name ≠ nm) ∧
    (∀ m, getMemoryAt es location = some m →
      m ∈ memoryOf es ∧ m.start ≤ location ∧ location ≤ m.endLoc) := by
  refine ⟨?_, ?_, ?_, getGlobal_error_iff, ?_⟩
  · rw [getMemoryAt, List.find?_eq_none]
    constructor
    · intro h m hm hc
      exact h m hm (containsLoc_eq_true.2 hc)
    · intro h m hm hc
      exact h m hm (containsLoc_eq_true.1 hc)
  · rw [getGlobalAt, List.find?_eq_none]
    constructor
    · intro h g hg hc
      exact h g hg (containsLoc_eq_true.2 hc)
    · intro h g hg hc
      exact h g hg (containsLoc_eq_true.1 hc)
  · rw [getGlobalEndingAt, List.find?_eq_none]
    constructor
    · intro h g hg hc
      exact h g hg (by simpa using hc)
    · intro h g hg hc
      exact h g hg (by simpa using hc)
  · intro m hm
    rw [getMemoryAt] at hm
    have hp :=
      @List.find?_some _ (fun g => containsLoc g location) m (memoryOf es) hm
    exact ⟨List.mem_of_find?_eq_some hm, containsLoc_eq_true.1 hp⟩

/-- C3 counterexample: on the parsed example map the queries return `None`
for unmatched addresses instead of raising, and `getMemoryAt` matches the
region's end address inclusively, which no half-open range contains. -/
theorem c3_counterexample :
    load mapText1 = .ok m1Entries ∧
    getMemoryAt m1Entries 9999 = none ∧
    getGlobalAt m1Entries 9999 = none ∧
    getGlobalEndingAt m1Entries 9999 = none ∧
    getMemoryAt m1Entries 4096 = some m1RAM ∧
    ¬((4096 : Int) < m1RAM.endLoc) :=
  ⟨rfl, rfl, rfl, rfl, rfl, by decide⟩

/-- C3 witness for the amended statement. -/
theorem c3_witness : getMemoryAt m1Entries 9999 = none :=
  (c3_queries_silent_none m1Entries 9999 ("zz".data)).1.mpr (by decide)

/-- C2 (amended): absence of the anchor `"Linker script and memory map"`
makes construction fail (the `IndexError` at `sections[1]`, or the
`ValueError` of a region line reached first); absence of
`"Memory Configuration"` alone is tolerated. -/
theorem c2_missing_second_anchor_errors (text : Str)
    (h : findSplit ("Linker script and memory map".data)
        (afterSub ("Memory Configuration".data)
          (text.filter (fun c => c != '\r'))) = none) :
    ∃ e, load text = .error e := by
  cases hr : parseRegion (afterSub ("Memory Configuration".data)
      (text.filter (fun c => c != '\r'))) with
  | error e =>
    exact ⟨e, by simp only [load, h, hr]⟩
  | ok mems =>
    exact ⟨.indexError, by simp only [load, h, hr]⟩

/-- C2 counterexample: text without `"Memory Configuration"` parses fine
(no `MissingSectionError` exists), while text without
`"Linker script and memory map"` raises `IndexError`. -/
theorem c2_counterexample :
    load ("Linker script and memory map".data) = .ok [] ∧
    load ("Memory Configuration".data) = .error .indexError :=
  ⟨rfl, rfl⟩

/-- C2 witness for the amended statement. -/
theorem c2_witness : ∃ e, load ("Memory Configuration".data) = .error e :=
  c2_missing_second_anchor_errors _ (by rfl)

/-- C7 (amended): the `end` property never raises; for an entry whose size
was never resolved (sentinel `-1`) it returns `address - 1`. -/
theorem c7_end_unresolved_value (e : MapEntry) (h : e.size = -1) :
    e.endLoc = e.address - 1 := by
  rw [MapEntry.endLoc, h]
  omega

/-- C7 counterexample: the parsed unresolved Global `gg` has `size = -1` and
its `end` evaluates to `address - 1 = 15`; no `InvariantViolationError` is
raised (none exists in the source). -/
theorem c7_counterexample :
    load cex7Text = .ok [gge] ∧ gge.size = -1 ∧ gge.address = 16 ∧
    MapEntry.endLoc gge = 15 :=
  ⟨rfl, rfl, rfl, by decide⟩

/-- C7 witness for the amended statement. -/
theorem c7_witness : MapEntry.endLoc gge = gge.address - 1 :=
  c7_end_unresolved_value gge rfl

/-- C5 (code bug evaluation): on the parsed A/B/C example,
`getAdjacentGlobals("B", distance=1)` returns `[B]` - the queried Global
itself - rather than `{A, C}`: `getGlobalEndingAt(start)` misses `A`
(which ends at `start - 1`), and `getGlobalStartingAt(end)`, an alias of
the inclusive `getGlobalAt`, re-finds `B` at its own end address. -/
theorem c5_adjacent_returns_queried_global :
    load mapText1 = .ok m1Entries ∧
    getAdjacentGlobals m1Entries ("B".data) 1 = .ok [m1B] ∧
    m1B.name = "B".data ∧
    m1A ∈ globalsOf m1Entries ∧ m1C ∈ globalsOf m1Entries ∧
    m1A ∉ [m1B] ∧ m1C ∉ [m1B] :=
  ⟨rfl, rfl, rfl, by decide, by decide, by decide, by decide⟩

theorem diagnoseGo_error_iff (es gs : List MapEntry) (l : List MapEntry) :
    diagnoseGo es gs l = .error () ↔
      ∃ g ∈ l, getMemoryAt es g.start = none := by
  induction l with
  | nil => simp [diagnoseGo]
  | cons g rest ih =>
    rw [diagnoseGo]
    cases hm : getMemoryAt es g.start with
    | none =>
      constructor
      · intro _
        exact ⟨g, by simp, hm⟩
      · intro _
        rfl
    | some mem =>
      cases hr : diagnoseGo es gs rest with
      | error e =>
        cases e
        constructor
        · intro _
          rcases ih.1 hr with ⟨g', hg', hn⟩
          exact ⟨g', by simp [hg'], hn⟩
        · intro _
          rfl
      | ok tail =>
        constructor
        · intro h
          simp at h
        · rintro ⟨g', hg', hn⟩
          rcases List.mem_cons.1 hg' with rfl | hg''
          · rw [hm] at hn
            cases hn
          · have hcontra := ih.2 ⟨g', hg'', hn⟩
            rw [hr] at hcontra
            simp at hcontra

/-- C9: `diagnose` raises (the `IndexError` of `g.memory`) exactly when some
Global's start lies outside every Memory region; it returns a findings
report only when every Global's start is contained in some region. -/
theorem c9_diagnose_error_iff (es : List MapEntry) :
    diagnose es = .error () ↔
      ∃ g ∈ globalsOf es, ∀ m ∈ memoryOf es,
        ¬(m.start ≤ g.start ∧ g.start ≤ m.endLoc) := by
  rw [diagnose, diagnoseGo_error_iff]
  constructor
  · rintro ⟨g, hg, hn⟩
    refine ⟨g, hg, ?_⟩
    rw [getMemoryAt, List.find?_eq_none] at hn
    intro m hm hc
    exact hn m hm (containsLoc_eq_true.2 hc)
  · rintro ⟨g, hg, hall⟩
    refine ⟨g, hg, ?_⟩
    rw [getMemoryAt, List.find?_eq_none]
    intro m hm hc
    exact hall m hm (containsLoc_eq_true.1 hc)

/-- C9 witness: a store whose Global lies in no Memory region makes
`diagnose` raise. -/
theorem c9_witness : diagnose w9Entries = .error () :=
  (c9_diagnose_error_iff w9Entries).mpr (by decide)

theorem mem_ite_singleton {α : Type} {c : Prop} [Decidable c] {a x : α}
    (h : x ∈ (if c then [a] else [])) : x = a := by
  split at h
  · simpa using h
  · cases h

theorem overlapCond_iff {s1 e1 s2 e2 : Int} :
    overlapCond s1 e1 s2 e2 = true ↔
      ((s2 ≤ s1 ∧ s1 < e2) ∨ (s2 < e1 ∧ e1 ≤ e2)) := by
  simp [overlapCond]

theorem overlap_not_mem_entryFindings (es : List MapEntry) (mem g : MapEntry)
    {n1 : Str} {s1 e1 : Int} {n2 : Str} {s2 e2 : Int} :
    Finding.overlap n1 s1 e1 n2 s2 e2 ∉ entryFindings es mem g := by
  intro h
  rw [entryFindings] at h
  rcases List.mem_append.1 h with h12 | h4
  · rcases List.mem_append.1 h12 with h1 | h2
    · simpa using mem_ite_singleton h1
    · simpa using mem_ite_singleton h2
  · rcases hmod : g.module with _ | mi <;> rw [hmod] at h4
    · cases h4
    · rcases List.mem_append.1 h4 with ha | hb
      · simpa using mem_ite_singleton ha
      · simpa using mem_ite_singleton hb

theorem overlap_mem_pairFindings {es : List MapEntry} {g g2 : MapEntry}
    {n1 : Str} {s1 e1 : Int} {n2 : Str} {s2 e2 : Int} :
    Finding.overlap n1 s1 e1 n2 s2 e2 ∈ pairFindings es g g2 ↔
      (g.name ≠ g2.name ∧
       overlapCond g.start g.endLoc g2.start g2.endLoc = true ∧
       n1 = g.name ∧ s1 = g.start ∧ e1 = g.endLoc ∧
       n2 = g2.name ∧ s2 = g2.start ∧ e2 = g2.endLoc) := by
  rw [pairFindings]
  by_cases hname : g.name = g2.name
  · rw [if_pos hname]
    constructor
    · intro h
      exfalso
      rcases hm1 : g.module with _ | m <;> rcases hm2 : g2.module with _ | m2 <;>
        rw [hm1, hm2] at h
      · cases h
      · cases h
      · cases h
      · by_cases hmm : m = m2
        · subst hmm
          simp at h
        · simp [hmm] at h
    · rintro ⟨hne, _⟩
      exact absurd hname hne
  · rw [if_neg hname]
    by_cases hov : overlapCond g.start g.endLoc g2.start g2.endLoc = true
    · rw [if_pos hov]
      simp [hname, hov, eq_comm]
    · rw [if_neg hov]
      simp [hov]

theorem diagnoseGo_ok_mem_overlap {es gs : List MapEntry}
    {l : List MapEntry} {r : List Finding}
    (h : diagnoseGo es gs l = .ok r) {n1 : Str} {s1 e1 : Int} {n2 : Str}
    {s2 e2 : Int} :
    Finding.overlap n1 s1 e1 n2 s2 e2 ∈ r ↔
      ∃ g ∈ l, ∃ g2 ∈ gs,
        Finding.overlap n1 s1 e1 n2 s2 e2 ∈ pairFindings es g g2 := by
  induction l generalizing r with
  | nil =>
    rw [diagnoseGo] at h
    injection h with h'
    subst h'
    simp
  | cons g rest ih =>
    rw [diagnoseGo] at h
    cases hm : getMemoryAt es g.start with
    | none =>
      rw [hm] at h
      simp at h
    | some mem =>
      rw [hm] at h
      cases hr : diagnoseGo es gs rest with
      | error e =>
        rw [hr] at h
        simp at h
      | ok tail =>
        rw [hr] at h
        injection h with h'
        subst h'
        constructor
        · intro hmem
          rcases List.mem_append.1 hmem with h12 | h4
          · rcases List.mem_append.1 h12 with h1 | h3
            · exact absurd h1 (overlap_not_mem_entryFindings es mem g)
            · rcases List.mem_flatMap.1 h3 with ⟨g2, hg2, hpf⟩
              exact ⟨g, by simp, g2, hg2, hpf⟩
          · rcases (ih hr).1 h4 with ⟨g', hg', g2, hg2, hpf⟩
            exact ⟨g', by simp [hg'], g2, hg2, hpf⟩
        · rintro ⟨g', hg', g2, hg2, hpf⟩
          rcases List.mem_cons.1 hg' with rfl | hg''
          · exact List.mem_append.2 (Or.inl (List.mem_append.2
              (Or.inr (List.mem_flatMap.2 ⟨g2, hg2, hpf⟩))))
          · exact List.mem_append.2 (Or.inr ((ih hr).2
              ⟨g', hg'', g2, hg2, hpf⟩))

/-- C1 (amended): for two different-named Globals of a map whose `diagnose`
completes and whose ranges are non-degenerate (`start < end`), an overlap is
reported between them exactly when `A.start < B.end` and `B.start < A.end`;
degenerate (unresolved-size) Globals escape this equivalence. -/
theorem c1_overlap_iff (es : List MapEntry) (r : List Finding)
    (a b : MapEntry) (hd : diagnose es = .ok r) (ha : a ∈ globalsOf es)
    (hb : b ∈ globalsOf es) (hname : a.name ≠ b.name)
    (hae : a.start < a.endLoc) (hbe : b.start < b.endLoc) :
    reportedOverlap r a b ↔ (a.start < b.endLoc ∧ b.start < a.endLoc) := by
  rw [diagnose] at hd
  rw [reportedOverlap, diagnoseGo_ok_mem_overlap hd,
    diagnoseGo_ok_mem_overlap hd]
  constructor
  · rintro (⟨g, hg, g2, hg2, hpf⟩ | ⟨g, hg, g2, hg2, hpf⟩) <;>
      rw [overlap_mem_pairFindings] at hpf
    · obtain ⟨hne, hov, e1, e2, e3, e4, e5, e6⟩ := hpf
      rw [overlapCond_iff] at hov
      rw [← e2, ← e3, ← e5, ← e6] at hov
      omega
    · obtain ⟨hne, hov, e1, e2, e3, e4, e5, e6⟩ := hpf
      rw [overlapCond_iff] at hov
      rw [← e2, ← e3, ← e5, ← e6] at hov
      omega
  · rintro ⟨h1, h2⟩
    by_cases hc : b.start ≤ a.start
    · left
      refine ⟨a, ha, b, hb, ?_⟩
      rw [overlap_mem_pairFindings]
      exact ⟨hname, overlapCond_iff.2 (Or.inl ⟨hc, h1⟩),
        rfl, rfl, rfl, rfl, rfl, rfl⟩
    · right
      refine ⟨b, hb, a, ha, ?_⟩
      rw [overlap_mem_pairFindings]
      exact ⟨fun he => hname he.symm,
        overlapCond_iff.2 (Or.inl ⟨by omega, h2⟩),
        rfl, rfl, rfl, rfl, rfl, rfl⟩

/-- C1 counterexample: the parsed map `cex1Entries` contains the degenerate
Global `g1` (`end < start` after backfill); `diagnose` reports an overlap
between `g1` and `g2` although the claim's half-open test rejects the pair. -/
theorem c1_counterexample :
    load cex1Text = .ok cex1Entries ∧
    diagnose cex1Entries = .ok cex1Findings ∧
    c1g1 ∈ globalsOf cex1Entries ∧ c1g2 ∈ globalsOf cex1Entries ∧
    c1g1.name ≠ c1g2.name ∧
    reportedOverlap cex1Findings c1g1 c1g2 ∧
    ¬(c1g1.start < c1g2.endLoc ∧ c1g2.start < c1g1.endLoc) := by
  refine ⟨rfl, rfl, by decide, by decide, by decide, ?_, by decide⟩
  exact Or.inl (by decide)

/-- C1 witness for the amended statement, on the specification's
`A[0,10)`/`B[5,15)` example. -/
theorem c1_witness :
    diagnose w1Entries = .ok w1Findings ∧
    (reportedOverlap w1Findings w1A w1B ↔
      (w1A.start < w1B.endLoc ∧ w1B.start < w1A.endLoc)) :=
  ⟨rfl, c1_overlap_iff w1Entries w1Findings w1A w1B rfl (by decide)
    (by decide) (by decide) (by decide) (by decide)⟩

/-! Dict lemmas for `differences`. -/

theorem dictFind_map_pair (l : List MapEntry) (k : Str) :
    dictFind (l.map (fun g => (g.name, g))) k =
      l.find? (fun g => g.name == k) := by
  induction l with
  | nil => rfl
  | cons g rest ih =>
    rw [List.map_cons, dictFind, List.find?]
    by_cases hk : g.name = k
    · rw [if_pos hk]
      have : (g.name == k) = true := by simpa using hk
      rw [this]
    · rw [if_neg hk]
      have : (g.name == k) = false := by simpa using hk
      rw [this, ih]

theorem dictFind_eq_none_iff (d : List (Str × MapEntry)) (k : Str) :
    dictFind d k = none ↔ k ∉ dictKeys d := by
  induction d with
  | nil => simp [dictFind, dictKeys]
  | cons p rest ih =>
    rw [dictFind]
    by_cases hk : p.1 = k
    · rw [if_pos hk]
      simp [dictKeys, hk]
    · rw [if_neg hk]
      rw [ih]
      simp only [dictKeys, List.map_cons, List.mem_cons]
      constructor
      · intro h hmem
        rcases hmem with h1 | h2
        · exact hk h1.symm
        · exact h h2
      · intro h hmem
        exact h (Or.inr hmem)

theorem dictInsert_not_mem (d : List (Str × MapEntry)) (k : Str)
    (v : MapEntry) (h : k ∉ dictKeys d) :
    dictInsert d k v = d ++ [(k, v)] := by
  induction d with
  | nil => rfl
  | cons p rest ih =>
    rw [dictInsert]
    have hk : p.1 ≠ k := by
      intro he
      exact h (by simp [dictKeys, he])
    rw [if_neg hk, ih (fun hm => h (by simp [dictKeys]; exact Or.inr (by simpa [dictKeys] using hm)))]
    rfl

theorem foldl_dictInsert (l : List MapEntry) (d : List (Str × MapEntry))
    (hdisj : ∀ g ∈ l, g.name ∉ dictKeys d)
    (hnd : (l.map MapEntry.name).Nodup) :
    l.foldl (fun d g => dictInsert d g.name g) d =
      d ++ l.map (fun g => (g.name, g)) := by
  induction l generalizing d with
  | nil => simp
  | cons g rest ih =>
    rw [List.foldl_cons,
      dictInsert_not_mem d g.name g (hdisj g (by simp))]
    rw [List.map_cons] at hnd
    have hnd' := List.nodup_cons.1 hnd
    rw [ih (d ++ [(g.name, g)]) ?_ hnd'.2]
    · simp
    · intro g' hg' hmem
      rw [dictKeys, List.map_append] at hmem
      rcases List.mem_append.1 hmem with h1 | h2
      · exact hdisj g' (by simp [hg']) h1
      · have : g'.name = g.name := by simpa using h2
        exact hnd'.1 (this ▸ List.mem_map_of_mem MapEntry.name hg')

theorem dictDelete_sublist (d : List (Str × MapEntry)) (k : Str) :
    List.Sublist (dictDelete d k) d := by
  induction d with
  | nil => simp [dictDelete]
  | cons p rest ih =>
    rw [dictDelete]
    by_cases hk : p.1 = k
    · rw [if_pos hk]
      exact List.sublist_cons_self p rest
    · rw [if_neg hk]
      exact ih.cons₂ p

theorem dictFind_delete_ne (d : List (Str × MapEntry)) (k k' : Str)
    (h : k' ≠ k) : dictFind (dictDelete d k) k' = dictFind d k' := by
  induction d with
  | nil => rfl
  | cons p rest ih =>
    rw [dictDelete]
    by_cases hk : p.1 = k
    · rw [if_pos hk]
      rw [dictFind, if_neg (fun (he : p.1 = k') => h (he.symm.trans hk))]
    · rw [if_neg hk]
      rw [dictFind, dictFind]
      by_cases hk' : p.1 = k'
      · rw [if_pos hk', if_pos hk']
      · rw [if_neg hk', if_neg hk', ih]

theorem dictDelete_filter (d : List (Str × MapEntry)) (k : Str)
    (q : Str × MapEntry → Bool) (hnd : (dictKeys d).Nodup) :
    (dictDelete d k).filter q =
      d.filter (fun p => !(p.1 == k) && q p) := by
  induction d with
  | nil => rfl
  | cons p rest ih =>
    rw [dictKeys, List.map_cons, List.nodup_cons] at hnd
    rw [dictDelete]
    by_cases hk : p.1 = k
    · rw [if_pos hk]
      rw [List.filter_cons]
      have : (!(p.1 == k) && q p) = false := by simp [hk]
      rw [this]
      simp only [Bool.false_eq_true, if_false]
      refine (List.filter_congr ?_).symm
      intro x hx
      have hxk : x.1 ≠ k := by
        intro he
        exact hnd.1 (hk ▸ he ▸ List.mem_map_of_mem Prod.fst hx)
      simp [hxk]
    · rw [if_neg hk]
      rw [List.filter_cons, List.filter_cons]
      have : (!(p.1 == k) && q p) = q p := by simp [hk]
      rw [this, ih hnd.2]

theorem diffLoop_spec (l2 : List MapEntry) (d : List (Str × MapEntry))
    (hnd : (dictKeys d).Nodup) (h2 : (l2.map MapEntry.name).Nodup) :
    diffLoop d l2 =
      (l2.flatMap (fun g2 =>
        match dictFind d g2.name with
        | none => [(("Only right".data : Str), none, some g2)]
        | some g1 =>
          (if g1.address ≠ g2.address then
             [(("Location different".data : Str), some g1, some g2)] else []) ++
          (if g1.size ≠ g2.size then
             [(("Size different".data : Str), some g1, some g2)] else [])),
       d.filter (fun p => !(l2.any (fun g2 => g2.name == p.1)))) := by
  induction l2 generalizing d with
  | nil =>
    rw [diffLoop]
    simp
  | cons g2 rest ih =>
    rw [List.map_cons, List.nodup_cons] at h2
    rw [diffLoop]
    cases hf : dictFind d g2.name with
    | none =>
      rw [ih d hnd h2.2]
      rw [List.flatMap_cons, hf]
      refine Prod.ext ?_ ?_
      · simp
      · show d.filter _ = d.filter _
        refine List.filter_congr ?_
        intro p hp
        have hpk : ¬(g2.name == p.1) = true := by
          intro he
          have : g2.name ∈ dictKeys d := by
            have : g2.name = p.1 := by simpa using he
            exact this ▸ List.mem_map_of_mem Prod.fst hp
          exact (dictFind_eq_none_iff d g2.name).1 hf this
        simp only [List.any_cons]
        simp [hpk]
    | some g1 =>
      have hnd' : (dictKeys (dictDelete d g2.name)).Nodup :=
        hnd.sublist ((dictDelete_sublist d g2.name).map Prod.fst)
      rw [ih (dictDelete d g2.name) hnd' h2.2]
      rw [List.flatMap_cons, hf]
      refine Prod.ext ?_ ?_
      · show _ ++ _ = _ ++ _
        congr 1
        refine List.flatMap_congr ?_
        intro g2' hg2'
        have : dictFind (dictDelete d g2.name) g2'.name = dictFind d g2'.name := by
          refine dictFind_delete_ne d g2.name g2'.name ?_
          intro he
          exact h2.1 (he ▸ List.mem_map_of_mem MapEntry.name hg2')
        rw [this]
      · show (dictDelete d g2.name).filter _ = d.filter _
        rw [dictDelete_filter d g2.name _ hnd]
        refine List.filter_congr ?_
        intro p hp
        simp only [List.any_cons]
        rw [Bool.not_or, Bool.beq_comm]

/-- C6: `differences` computes exactly the claim's per-entry description
when each map's Globals carry pairwise distinct names (the premise of
keying Globals by name). -/
theorem c6_differences_spec (self other : List MapEntry)
    (h1 : ((globalsOf self).map MapEntry.name).Nodup)
    (h2 : ((globalsOf other).map MapEntry.name).Nodup) :
    differences self other = specDifferences self other := by
  rw [differences, specDifferences]
  rw [foldl_dictInsert (globalsOf self) [] (by simp [dictKeys]) h1]
  rw [List.nil_append]
  have hndk : (dictKeys ((globalsOf self).map (fun g => (g.name, g)))).Nodup := by
    rw [dictKeys, List.map_map]
    simpa using h1
  rw [diffLoop_spec (globalsOf other) _ hndk h2]
  congr 1
  · refine List.flatMap_congr ?_
    intro g2 _
    rw [dictFind_map_pair]
  · rw [List.filter_map]
    rw [List.map_map]
    rfl

/-- C6 witness on the specification's diff example: `self` has `x@0x100`,
`other` has `x@0x104` (same size) and a new `y`. -/
theorem c6_witness :
    differences [w6x1] [w6x2, w6y] = specDifferences [w6x1] [w6x2, w6y] ∧
    differences [w6x1] [w6x2, w6y] =
      [(("Location different".data : Str), some w6x1, some w6x2),
       (("Only right".data : Str), none, some w6y)] :=
  ⟨c6_differences_spec [w6x1] [w6x2, w6y] (by decide) (by decide), rfl⟩

/-! Access lemmas for the backfill invariant (C4). -/

theorem setEnd_entryType (e : MapEntry) (v : Int) :
    (e.setEnd v).entryType = e.entryType := rfl

theorem setEnd_module (e : MapEntry) (v : Int) :
    (e.setEnd v).module = e.module := rfl

theorem setEnd_start (e : MapEntry) (v : Int) :
    (e.setEnd v).start = e.start := rfl

theorem setEnd_endLoc (e : MapEntry) (v : Int) :
    (e.setEnd v).endLoc = v := by
  simp [MapEntry.setEnd, MapEntry.endLoc, MapEntry.start]

theorem setEndAt_length (l : List MapEntry) (j : Nat) (v : Int) :
    (setEndAt l j v).length = l.length := by
  rw [setEndAt]
  split
  · simp
  · rfl

theorem setEndAt_getElem (l : List MapEntry) (j : Nat) (v : Int) (k : Nat) :
    (setEndAt l j v)[k]? =
      if k = j then (l[j]?).map (fun x => x.setEnd v) else l[k]? := by
  rw [setEndAt]
  split
  · next x hj =>
    by_cases hk : k = j
    · subst hk
      rw [if_pos rfl, hj]
      have hlt : k < l.length := (List.getElem?_eq_some.1 hj).choose
      rw [List.getElem?_set_self hlt]
      rfl
    · rw [if_neg hk]
      exact List.getElem?_set_ne (fun he => hk he.symm)
  · next hj =>
    by_cases hk : k = j
    · subst hk
      rw [if_pos rfl, hj]
      simp
    · rw [if_neg hk]

theorem getElem?_concat (l : List MapEntry) (x : MapEntry) (i : Nat) :
    (l ++ [x])[i]? =
      if i < l.length then l[i]? else if i = l.length then some x
      else none := by
  rcases Nat.lt_trichotomy i l.length with h | h | h
  · rw [if_pos h, List.getElem?_append_left h]
  · subst h
    rw [if_neg (Nat.lt_irrefl _), if_pos rfl, List.getElem?_concat_length]
  · rw [if_neg (by omega), if_neg (by omega)]
    refine List.getElem?_eq_none ?_
    simp
    omega

theorem not_global_of_module (e : MapEntry) (h : isModuleE e) :
    ¬ isGlobalE e := by
  rw [isModuleE] at h
  rw [isGlobalE, h]
  decide

theorem not_global_of_memory (e : MapEntry)
    (h : e.entryType = "Memory".data) : ¬ isGlobalE e := by
  rw [isGlobalE, h]
  decide

theorem processMemLine_memory {es es1 : List MapEntry} {line : Str}
    (hl : processMemLine es line = .ok es1)
    (h : ∀ e ∈ es, e.entryType = "Memory".data ∧ e.module = none) :
    ∀ e ∈ es1, e.entryType = "Memory".data ∧ e.module = none := by
  rw [processMemLine] at hl
  split at hl
  · injection hl with h'
    subst h'
    exact h
  · split at hl
    · cases hl
    · split at hl
      · cases hl
      · injection hl with h'
        subst h'
        intro e he
        rcases List.mem_append.1 he with h1 | h2
        · exact h e h1
        · have he' : e = mkMapEntry [] none ("Memory".data) _ _ _ (-1) _ :=
            List.mem_singleton.1 h2
          subst he'
          exact ⟨rfl, rfl⟩

theorem processMemLines_memory {lines : List Str} {es es' : List MapEntry}
    (hp : processMemLines es lines = .ok es')
    (h : ∀ e ∈ es, e.entryType = "Memory".data ∧ e.module = none) :
    ∀ e ∈ es', e.entryType = "Memory".data ∧ e.module = none := by
  induction lines generalizing es with
  | nil =>
    rw [processMemLines] at hp
    injection hp with h'
    subst h'
    exact h
  | cons line rest ih =>
    rw [processMemLines] at hp
    split at hp
    · cases hp
    · next es1 hl =>
      exact ih hp (processMemLine_memory hl h)

theorem parseRegion_memory {s : Str} {mems : List MapEntry}
    (hp : parseRegion s = .ok mems) :
    ∀ e ∈ mems, e.entryType = "Memory".data ∧ e.module = none := by
  rw [parseRegion] at hp
  exact processMemLines_memory hp (by intro e he; cases he)

theorem storeInv_append_nonglobal {l : List MapEntry} {e : MapEntry}
    (hinv : StoreInv l) (hmod : e.module = none) (hty : ¬ isGlobalE e) :
    StoreInv (l ++ [e]) := by
  obtain ⟨hmb, hcg, hbf⟩ := hinv
  refine ⟨?_, ?_, ?_⟩
  · intro i e' m he hm
    rw [getElem?_concat] at he
    split at he
    · exact hmb i e' m he hm
    · split at he
      · injection he with h'
        subst h'
        rw [hmod] at hm
        cases hm
      · cases he
  · intro j b m hb hgb hbm k hk1 hk2
    rw [getElem?_concat] at hb
    split at hb
    · obtain ⟨c, hc, hgc, hcm⟩ := hcg j b m hb hgb hbm k hk1 hk2
      refine ⟨c, ?_, hgc, hcm⟩
      rw [getElem?_concat, if_pos (by omega)]
      exact hc
    · split at hb
      · injection hb with h'
        subst h'
        exact absurd hgb hty
      · cases hb
  · intro i a b m ha hb hga hgb ham hbm
    rw [getElem?_concat] at ha hb
    split at hb
    · split at ha
      · exact hbf i a b m ha hb hga hgb ham hbm
      · split at ha
        · omega
        · cases ha
    · split at hb
      · injection hb with h'
        subst h'
        exact absurd hgb hty
      · cases hb

theorem moduleAppend_inv {st : MapState} (hinv : StInv st)
    (secName nameS : Str) (addr size : Int) :
    StInv (moduleAppend st secName nameS addr size) := by
  have hnewty :
      isModuleE (mkMapEntry secName none ("Module".data) nameS addr size (-1)
        ("rwx".data)) := rfl
  refine ⟨?_, ?_, ?_,
    storeInv_append_nonglobal hinv.store rfl
      (not_global_of_module _ hnewty)⟩
  · intro j hj
    simp [moduleAppend] at hj
  · intro _
    right
    refine ⟨st.entries.length,
      mkMapEntry secName none ("Module".data) nameS addr size (-1)
        ("rwx".data), rfl, by simp [moduleAppend], ?_, hnewty⟩
    exact List.getElem?_concat_length st.entries _
  · intro i hi
    simp only [moduleAppend] at hi
    injection hi with h'
    subst h'
    refine ⟨mkMapEntry secName none ("Module".data) nameS addr size (-1)
      ("rwx".data), ?_, hnewty⟩
    exact List.getElem?_concat_length st.entries _

theorem newGlobalEntry_module (st : MapState) (nameS : Str) (addr : Int) :
    (newGlobalEntry st nameS addr).module = st.currentModule := rfl

theorem newGlobalEntry_global (st : MapState) (nameS : Str) (addr : Int) :
    isGlobalE (newGlobalEntry st nameS addr) := rfl

theorem newGlobalEntry_start (st : MapState) (nameS : Str) (addr : Int) :
    (newGlobalEntry st nameS addr).start = addr := by
  rw [newGlobalEntry, mkMapEntry, MapEntry.start]

theorem globalAppend_inv {st : MapState} (hinv : StInv st) (nameS : Str)
    (addr : Int) : StInv (globalAppend st nameS addr) := by
  obtain ⟨hlast, hnone, hcur, hmb, hcg, hbf⟩ := hinv
  rcases hli : st.lastItem with _ | j
  · -- no backfill: a plain append
    have hent : (globalAppend st nameS addr).entries =
        st.entries ++ [newGlobalEntry st nameS addr] := by
      simp [globalAppend, hli]
    refine ⟨?_, ?_, ?_, ?_, ?_, ?_⟩
    · intro j' hj'
      simp only [globalAppend] at hj'
      injection hj' with h'
      subst h'
      refine ⟨by rw [hent]; simp, newGlobalEntry st nameS addr, ?_, rfl, rfl⟩
      rw [hent]
      exact List.getElem?_concat_length st.entries _
    · intro hcontra
      simp [globalAppend] at hcontra
    · intro i hi
      simp only [globalAppend] at hi
      obtain ⟨e, he, hm⟩ := hcur i hi
      refine ⟨e, ?_, hm⟩
      rw [hent, getElem?_concat,
        if_pos (List.getElem?_eq_some.1 he).choose]
      exact he
    · intro i e' m he hm
      rw [hent, getElem?_concat] at he
      split at he
      · exact hmb i e' m he hm
      · split at he
        · next hilt hieq =>
          injection he with h'
          subst h'
          rw [newGlobalEntry_module] at hm
          obtain ⟨e0, he0, _⟩ := hcur m hm
          have := (List.getElem?_eq_some.1 he0).choose
          omega
        · cases he
    · intro j' b m hb hgb hbm k hk1 hk2
      rw [hent, getElem?_concat] at hb
      split at hb
      · obtain ⟨c, hc, hgc, hcm⟩ := hcg j' b m hb hgb hbm k hk1 hk2
        refine ⟨c, ?_, hgc, hcm⟩
        rw [hent, getElem?_concat, if_pos (by omega)]
        exact hc
      · split at hb
        · next hjlt hjeq =>
          injection hb with h'
          subst h'
          rw [newGlobalEntry_module] at hbm
          rcases hnone hli with hcn | ⟨i0, e0, hc0, hlen0, he0, hm0⟩
          · rw [hcn] at hbm
            cases hbm
          · rw [hc0] at hbm
            injection hbm with h''
            subst h''
            omega
        · cases hb
    · intro i a b m ha hb hga hgb ham hbm
      rw [hent, getElem?_concat] at ha hb
      split at hb
      · split at ha
        · exact hbf i a b m ha hb hga hgb ham hbm
        · split at ha
          · omega
          · cases ha
      · split at hb
        · next hblt hbeq =>
          injection hb with h'
          subst h'
          rw [newGlobalEntry_module] at hbm
          rcases hnone hli with hcn | ⟨i0, e0, hc0, hlen0, he0, hm0⟩
          · rw [hcn] at hbm
            cases hbm
          · rw [hc0] at hbm
            injection hbm with h''
            split at ha
            · have him : i = i0 := by omega
              rw [him, he0] at ha
              injection ha with h3
              exact absurd (h3 ▸ hga) (not_global_of_module e0 hm0)
            · split at ha
              · omega
              · cases ha
        · cases hb
  · -- backfill of the previous Global at index j
    obtain ⟨hjn, le, hle, hgle, hlem⟩ := hlast j hli
    have hjlt : j < st.entries.length := by omega
    have hacc : ∀ k, (globalAppend st nameS addr).entries[k]? =
        if k = j then some (le.setEnd (addr - 1))
        else if k < st.entries.length then st.entries[k]?
        else if k = st.entries.length then some (newGlobalEntry st nameS addr)
        else none := by
      intro k
      have hent : (globalAppend st nameS addr).entries =
          setEndAt (st.entries ++ [newGlobalEntry st nameS addr]) j
            ((newGlobalEntry st nameS addr).start - 1) := by
        simp [globalAppend, hli]
      rw [hent, setEndAt_getElem]
      by_cases hk : k = j
      · rw [if_pos hk, if_pos hk, getElem?_concat, if_pos hjlt, hle,
          newGlobalEntry_start]
        rfl
      · rw [if_neg hk, if_neg hk, getElem?_concat]
    refine ⟨?_, ?_, ?_, ?_, ?_, ?_⟩
    · intro j' hj'
      simp only [globalAppend] at hj'
      injection hj' with h'
      subst h'
      refine ⟨?_, newGlobalEntry st nameS addr, ?_, rfl, rfl⟩
      · simp only [globalAppend, hli]
        rw [setEndAt_length]
        simp
      · rw [hacc, if_neg (by omega), if_neg (by omega), if_pos rfl]
    · intro hcontra
      simp [globalAppend] at hcontra
    · intro i hi
      simp only [globalAppend] at hi
      obtain ⟨e, he, hm⟩ := hcur i hi
      have hij : i ≠ j := by
        intro heq
        subst heq
        rw [hle] at he
        injection he with h3
        exact absurd (h3 ▸ hgle) (not_global_of_module e hm)
      refine ⟨e, ?_, hm⟩
      rw [hacc, if_neg hij, if_pos (List.getElem?_eq_some.1 he).choose]
      exact he
    · intro k e' m he hm
      rw [hacc] at he
      split at he
      · next hkj =>
        injection he with h'
        subst h'
        rw [setEnd_module] at hm
        have := hmb j le m hle hm
        omega
      · split at he
        · exact hmb k e' m he hm
        · split at he
          · next hkj hklt hkeq =>
            injection he with h'
            subst h'
            rw [newGlobalEntry_module, ← hlem] at hm
            have := hmb j le m hle hm
            omega
          · cases he
    · intro j' b m hb hgb hbm k hk1 hk2
      rw [hacc] at hb
      split at hb
      · next hjj =>
        injection hb with h'
        subst h'
        rw [setEnd_module] at hbm
        rw [hjj] at hk2
        obtain ⟨c, hc, hgc, hcm⟩ := hcg j le m hle hgle hbm k hk1 hk2
        refine ⟨c, ?_, hgc, hcm⟩
        rw [hacc, if_neg (by omega), if_pos (by omega)]
        exact hc
      · split at hb
        · next hjj hjlt' =>
          obtain ⟨c, hc, hgc, hcm⟩ := hcg j' b m hb hgb hbm k hk1 hk2
          by_cases hkj : k = j
          · subst hkj
            rw [hle] at hc
            injection hc with h3
            refine ⟨le.setEnd (addr - 1), ?_, hgle, ?_⟩
            · rw [hacc, if_pos rfl]
            · rw [setEnd_module, h3]
              exact hcm
          · refine ⟨c, ?_, hgc, hcm⟩
            rw [hacc, if_neg hkj, if_pos (by omega)]
            exact hc
        · split at hb
          · next hjj hjlt' hjeq =>
            injection hb with h'
            subst h'
            rw [newGlobalEntry_module] at hbm
            have hlem' : le.module = some m := by rw [hlem, hbm]
            by_cases hkj : k = j
            · subst hkj
              refine ⟨le.setEnd (addr - 1), ?_, hgle, ?_⟩
              · rw [hacc, if_pos rfl]
              · rw [setEnd_module]
                exact hlem'
            · have hkj' : k < j := by omega
              obtain ⟨c, hc, hgc, hcm'⟩ := hcg j le m hle hgle hlem' k hk1 hkj'
              refine ⟨c, ?_, hgc, hcm'⟩
              rw [hacc, if_neg hkj, if_pos (by omega)]
              exact hc
          · cases hb
    · intro i a b m ha hb hga hgb ham hbm
      rw [hacc] at ha
      rw [hacc] at hb
      split at hb
      · next hij =>
        injection hb with h'
        subst h'
        split at ha
        · omega
        · split at ha
          · have hble : st.entries[i + 1]? = some le := by
              rw [hij]
              exact hle
            have hm' : le.module = some m := by
              rw [setEnd_module] at hbm
              exact hbm
            have hres := hbf i a le m ha hble hga hgle ham hm'
            rw [setEnd_start]
            exact hres
          · split at ha
            · omega
            · cases ha
      · split at hb
        · split at ha
          · omega
          · split at ha
            · exact hbf i a b m ha hb hga hgb ham hbm
            · split at ha
              · omega
              · cases ha
        · split at hb
          · next hb1 hb2 hb3 =>
            injection hb with h'
            subst h'
            split at ha
            · next haj =>
              injection ha with h3
              subst h3
              rw [setEnd_endLoc, newGlobalEntry_start]
            · omega
          · cases hb

theorem stInv_init (mems : List MapEntry)
    (h : ∀ e ∈ mems, e.entryType = "Memory".data ∧ e.module = none) :
    StInv { entries := mems, currentModule := none, lastItem := none,
            okSection := false } := by
  refine ⟨?_, ?_, ?_, ?_, ?_, ?_⟩
  · intro j hj
    cases hj
  · intro _
    exact Or.inl rfl
  · intro i hi
    cases hi
  · intro i e m he hm
    have := (h e (List.getElem?_mem he)).2
    rw [this] at hm
    cases hm
  · intro j b m hb hgb _
    exact absurd hgb (not_global_of_memory b (h b (List.getElem?_mem hb)).1)
  · intro i a b m ha hb hga _ _ _
    exact absurd hga (not_global_of_memory a (h a (List.getElem?_mem ha)).1)

theorem processMapLine_inv {st st' : MapState} {line : Str}
    (h : processMapLine st line = .ok st') (hinv : StInv st) : StInv st' := by
  rw [processMapLine] at h
  split at h
  · injection h with h'
    subst h'
    exact hinv
  · split at h
    · injection h with h'
      subst h'
      refine ⟨?_, ?_, ?_, hinv.store⟩
      · intro j hj
        simp at hj
      · intro _
        exact Or.inl rfl
      · intro i hi
        simp at hi
    · split at h
      · injection h with h'
        subst h'
        exact hinv
      · split at h
        · injection h with h'
          subst h'
          exact hinv
        · split at h
          · split at h
            · split at h
              · cases h
              · injection h with h'
                subst h'
                exact moduleAppend_inv hinv _ _ _ _
            · split at h
              · cases h
              · split at h
                · cases h
                · injection h with h'
                  subst h'
                  exact moduleAppend_inv hinv _ _ _ _
          · split at h
            · cases h
            · injection h with h'
              subst h'
              exact globalAppend_inv hinv _ _

theorem processMapLines_inv {lines : List Str} {st st' : MapState}
    (h : processMapLines st lines = .ok st') (hinv : StInv st) :
    StInv st' := by
  induction lines generalizing st with
  | nil =>
    rw [processMapLines] at h
    injection h with h'
    subst h'
    exact hinv
  | cons line rest ih =>
    rw [processMapLines] at h
    split at h
    · cases h
    · next st1 hl =>
      exact ih h (processMapLine_inv hl hinv)

theorem parseMapSection_storeInv {mems es : List MapEntry} {s : Str}
    (h : parseMapSection mems s = .ok es)
    (hmem : ∀ e ∈ mems, e.entryType = "Memory".data ∧ e.module = none) :
    StoreInv es := by
  rw [parseMapSection] at h
  split at h
  · cases h
  · next stF hF =>
    injection h with h'
    subst h'
    exact (processMapLines_inv hF (stInv_init mems hmem)).store

theorem load_storeInv {text : Str} {es : List MapEntry}
    (h : load text = .ok es) : StoreInv es := by
  rw [load] at h
  split at h
  · split at h
    · cases h
    · next mems hr =>
      exact parseMapSection_storeInv h (parseRegion_memory hr)
  · split at h
    · cases h
    · cases h

/-- C4: in every successfully parsed map, a Global whose immediate successor
in parse order belongs to the same module has its end backfilled to that
successor's start minus one. -/
theorem c4_backfill (text : Str) (es : List MapEntry)
    (h : load text = .ok es) (i j : Nat) (a b : MapEntry) (m : Nat)
    (ha : es[i]? = some a) (hb : es[j]? = some b) (hij : i < j)
    (hga : isGlobalE a) (hgb : isGlobalE b)
    (hma : a.module = some m) (hmb : b.module = some m)
    (hbetween : ∀ k c, i < k → k < j → es[k]? = some c →
      ¬(isGlobalE c ∧ c.module = some m)) :
    a.endLoc = b.start - 1 := by
  obtain ⟨hmbf, hcg, hbf⟩ := load_storeInv h
  have hmi : m < i := hmbf i a m ha hma
  have hj1 : j = i + 1 := by
    by_contra hne
    have hlt : i + 1 < j := by omega
    obtain ⟨c, hc, hgc, hcm⟩ := hcg j b m hb hgb hmb (i + 1) (by omega) hlt
    exact hbetween (i + 1) c (by omega) hlt hc ⟨hgc, hcm⟩
  subst hj1
  exact hbf i a b m ha hb hga hgb hma hmb

/-- C4 witness on the specification's backfill example: same-module Globals
`A@0` (no explicit size), `B@10`, `C@20` end with `A.end = 9`, `B.end = 19`,
and the last Global `C` keeps the module's inherited end and access. -/
theorem c4_witness :
    load mapText1 = .ok m1Entries ∧
    m1A.endLoc = m1B.start - 1 ∧ m1B.endLoc = m1C.start - 1 ∧
    m1A.endLoc = 9 ∧ m1B.endLoc = 19 ∧
    m1C.endLoc = m1Mod.endLoc ∧ m1C.access = m1Mod.access := by
  refine ⟨rfl, ?_, ?_, by decide, by decide, by decide, rfl⟩
  · exact c4_backfill mapText1 m1Entries rfl 2 3 m1A m1B 1 rfl rfl
      (by omega) rfl rfl rfl rfl
      (by intro k c h1 h2 h3 h4; omega)
  · exact c4_backfill mapText1 m1Entries rfl 3 4 m1B m1C 1 rfl rfl
      (by omega) rfl rfl rfl rfl
      (by intro k c h1 h2 h3 h4; omega)

end MemMap
